import Mathlib

/-!
Verification development for the DocumentSelection component
(src/packages/ckeditor5-engine/src/model/documentselection.js).

The attribute map of a selection, the attribute resolution pass
(_updateAttributes), the reserved key attribute store on the parent element
and the range bookkeeping (setRanges / removeAllRanges / _pushRange /
_popRange) are embedded as pure functions over explicit state records.
JS Map values are embedded as insertion ordered association lists, JS
strings as lists of characters, and the deferred transaction mechanism
(document.enqueueChanges) as an explicit queue of scheduled store units
that a separate flush function applies in order.
-/

/-- Attribute keys are JS strings, embedded as lists of characters so that the
reserved store key encoding (concatenation with the reserved marker, stripping
by dropping its length) can be reasoned about directly. -/
abbrev Key := List Char

/-- Attribute values are opaque to the whole component; only equality on them
is ever used, so they are embedded as natural numbers. -/
abbrev Value := Nat

/-- The reserved key marker from the source, const storePrefix = "selection:". -/
def storePfx : Key := "selection:".toList

/-- Modelled from the spec: a direct child of the selection parent element as
seen by the resolution pass (node.js and characterproxy.js are not under src).
A character node (text bearing item) carries its own attribute list; every
other node kind is opaque to the algorithm. -/
inductive Child
  | character (attrs : List (Key × Value))
  | element
  deriving DecidableEq

/-- Modelled from the spec: the kind tag of an item produced by iterating a
range in document order (treewalker.js is not under src). TEXT items are the
text bearing ones. -/
inductive ItemType
  | text
  | other
  deriving DecidableEq

/-- Modelled from the spec: one item yielded while scanning the contents of
the first range in document order; for a TEXT item, attrs is the attribute
set of the text bearing item. -/
structure RangeItem where
  type : ItemType
  attrs : List (Key × Value)
  deriving DecidableEq

/-- One mutation scheduled on the deferred transaction. Each constructor
records the closure enqueued by the corresponding source method:
setOne by _storeAttribute, removeOne by _removeStoredAttribute and
replaceStored by _setStoredAttributesTo. -/
inductive StoreUnit
  | setOne (key : Key) (value : Value)
  | removeOne (key : Key)
  | replaceStored (attrs : List (Key × Value))
  deriving DecidableEq

/-- A primitive batch mutation of the parent element attributes, batch.setAttr
or batch.removeAttr. -/
inductive BatchOp
  | setAttr (key : Key) (value : Value)
  | removeAttr (key : Key)
  deriving DecidableEq

/-- State of one DocumentSelection together with the part of the tree its
algorithms read. isCollapsed and the first position (its parent children list,
the caret offset in it and the parent element attributes elAttrs) abstract the
range geometry supplied by the base Selection; rangeItems is the item sequence
produced by iterating the first range; attrsMap is this._attrs; pending is the
queue of store units enqueued on the open transaction; fires counts the
emitted change:attribute notifications. -/
structure DState where
  isCollapsed : Bool
  children : List Child
  offset : Nat
  rangeItems : List RangeItem
  elAttrs : List (Key × Value)
  attrsMap : List (Key × Value)
  pending : List StoreUnit
  fires : Nat
  deriving DecidableEq

/-- JS Map.set semantics on an insertion ordered association list: an existing
key keeps its position and receives the new value, a fresh key is appended. -/
def mapSet (m : List (Key × Value)) (k : Key) (v : Value) : List (Key × Value) :=
  if k ∈ m.map Prod.fst then m.map (fun a => if a.1 = k then (k, v) else a)
  else m ++ [(k, v)]

/-- Modelled from the spec: utils/tomap.js (not under src) builds a fresh JS
Map from an iterable of pairs; new Map(pairs) has the same semantics. Later
occurrences of a key overwrite the value at the first insertion position. -/
def toMap (l : List (Key × Value)) : List (Key × Value) :=
  l.foldl (fun acc a => mapSet acc a.1 a.2) []

/-- Embedding of the generator _getStoredAttributes: when the selection is
collapsed and the parent element has no children, yield every parent attribute
whose key starts with the reserved marker, with the marker stripped; otherwise
yield nothing. The pairs yielded by the source generator are collected into a
list. -/
def getStoredAttributes (s : DState) : List (Key × Value) :=
  if s.isCollapsed ∧ s.children.length = 0 then
    (s.elAttrs.filter (fun a => storePfx.isPrefixOf a.1)).map
      (fun a => (a.1.drop storePfx.length, a.2))
  else []

/-- Embedding of _storeAttribute: under the collapsed and childless parent
guard, enqueue one deferred batch.setAttr of the encoded key. -/
def storeAttribute (s : DState) (k : Key) (v : Value) : DState :=
  if s.isCollapsed ∧ s.children.length = 0 then
    { s with pending := s.pending ++ [StoreUnit.setOne k v] }
  else s

/-- Embedding of _removeStoredAttribute: under the same guard, enqueue one
deferred batch.removeAttr of the encoded key. -/
def removeStoredAttribute (s : DState) (k : Key) : DState :=
  if s.isCollapsed ∧ s.children.length = 0 then
    { s with pending := s.pending ++ [StoreUnit.removeOne k] }
  else s

/-- Embedding of _setStoredAttributesTo: under the same guard, enqueue one
deferred unit that removes every currently stored key and then writes the
given attributes. -/
def setStoredAttributesTo (s : DState) (attrs : List (Key × Value)) : DState :=
  if s.isCollapsed ∧ s.children.length = 0 then
    { s with pending := s.pending ++ [StoreUnit.replaceStored attrs] }
  else s

/-- Embedding of setAttribute: set on this._attrs, store, fire. -/
def setAttribute (s : DState) (k : Key) (v : Value) : DState :=
  let s1 := { s with attrsMap := mapSet s.attrsMap k v }
  let s2 := storeAttribute s1 k v
  { s2 with fires := s2.fires + 1 }

/-- Embedding of removeAttribute: delete from this._attrs, remove stored,
fire. -/
def removeAttribute (s : DState) (k : Key) : DState :=
  let s1 := { s with attrsMap := s.attrsMap.filter (fun a => a.1 != k) }
  let s2 := removeStoredAttribute s1 k
  { s2 with fires := s2.fires + 1 }

/-- Embedding of setAttributesTo: replace this._attrs by toMap(attrs), replace
the stored attributes by the new map, fire. -/
def setAttributesTo (s : DState) (attrs : List (Key × Value)) : DState :=
  let s1 := { s with attrsMap := toMap attrs }
  let s2 := setStoredAttributesTo s1 (toMap attrs)
  { s2 with fires := s2.fires + 1 }

/-- Embedding of clearAttributes: clear this._attrs, replace the stored
attributes by the empty map, fire. -/
def clearAttributes (s : DState) : DState :=
  let s1 := { s with attrsMap := [] }
  let s2 := setStoredAttributesTo s1 []
  { s2 with fires := s2.fires + 1 }

/-- Embedding of the local helper getAttrsIfCharacter of _updateAttributes:
the attribute iterator of a character node (truthy even when it yields no
pairs, hence some), null for null or a non character node. -/
def getAttrsIfCharacter : Option Child → Option (List (Key × Value))
  | some (Child.character a) => some a
  | _ => none

/-- Modelled from the spec: Element.getChild (element.js is not under src);
a negative or out of range index gives null. -/
def childAt (children : List Child) (i : Int) : Option Child :=
  if i < 0 then none else children[i.toNat]?

/-- Embedding of the tier 4 while loop of _updateAttributes. The argument is
the index of the current node; the loop moves to the previous sibling, takes
its attributes when it is a character and stops at the start of the child
list. -/
def walkLeft (children : List Child) : Nat → Option (List (Key × Value))
  | 0 => none
  | j + 1 =>
    match getAttrsIfCharacter children[j]? with
    | some a => some a
    | none => walkLeft children j

/-- Embedding of the tier 5 while loop of _updateAttributes, with explicit
fuel so that the definition is structurally recursive. The second argument is
the index of the current node; the loop moves to the next sibling, takes its
attributes when it is a character and stops at the end of the child list. -/
def walkRightFuel (children : List Child) : Nat → Nat → Option (List (Key × Value))
  | 0, _ => none
  | fuel + 1, i =>
    if i + 1 < children.length then
      match getAttrsIfCharacter children[i + 1]? with
      | some a => some a
      | none => walkRightFuel children fuel (i + 1)
    else none

/-- The tier 5 walk started with enough fuel: the index grows at every step,
so children.length steps always suffice. -/
def walkRight (children : List Child) (i : Nat) : Option (List (Key × Value)) :=
  walkRightFuel children children.length i

/-- Embedding of the tier 1 loop of _updateAttributes: every item of the first
range is visited, and the attributes are taken from an item exactly when it is
a TEXT item and attrs is still null. -/
def scanItems (items : List RangeItem) : Option (List (Key × Value)) :=
  items.foldl
    (fun attrs it => if it.type = ItemType.text ∧ attrs = none then some it.attrs else attrs)
    none

/-- Embedding of the collapsed branch of _updateAttributes, tiers 2 to 6:
node before the caret, node after the caret, walk left, walk right, stored
attributes. The source keeps the intermediate result in a variable that is
null or an attribute iterator; it is embedded as an Option. Tier 6 assigns
the generator object itself, which is truthy even when it yields nothing, so
the collapsed branch always produces a (possibly empty) attribute list. -/
def resolveCollapsed (s : DState) : List (Key × Value) :=
  let iBefore : Option Nat :=
    if s.offset = 0 then none
    else if s.offset - 1 < s.children.length then some (s.offset - 1) else none
  let iAfter : Option Nat := if s.offset < s.children.length then some s.offset else none
  let a0 := getAttrsIfCharacter (iBefore.bind (fun i => s.children[i]?))
  let a1 := if a0 = none then getAttrsIfCharacter (iAfter.bind (fun i => s.children[i]?)) else a0
  let a2 := if a1 = none then
      (match iBefore with
       | some i => walkLeft s.children i
       | none => none)
    else a1
  let a3 := if a2 = none then
      (match iAfter with
       | some i => walkRight s.children i
       | none => none)
    else a2
  match a3 with
  | some a => a
  | none => getStoredAttributes s

/-- Embedding of _updateAttributes: compute the resolved attributes (tier 1
for a non collapsed selection, tiers 2 to 6 for a collapsed one); when the
result is non null replace this._attrs by a fresh map built from it, otherwise
call clearAttributes; finally fire change:attribute. -/
def updateAttributes (s : DState) : DState :=
  let attrs : Option (List (Key × Value)) :=
    if s.isCollapsed = false then scanItems s.rangeItems
    else some (resolveCollapsed s)
  match attrs with
  | some a => { s with attrsMap := toMap a, fires := s.fires + 1 }
  | none =>
    let s1 := clearAttributes s
    { s1 with fires := s1.fires + 1 }

/-- Effect of one primitive batch mutation on the attribute map of the parent
element. -/
def applyBatchOp (m : List (Key × Value)) : BatchOp → List (Key × Value)
  | BatchOp.setAttr k v => mapSet m k v
  | BatchOp.removeAttr k => m.filter (fun a => a.1 != k)

/-- The batch mutations produced when a scheduled store unit runs. The closure
enqueued by _setStoredAttributesTo re-reads _getStoredAttributes at flush
time, so the removals are computed from the state the unit runs in. -/
def unitOps (s : DState) : StoreUnit → List BatchOp
  | StoreUnit.setOne k v => [BatchOp.setAttr (storePfx ++ k) v]
  | StoreUnit.removeOne k => [BatchOp.removeAttr (storePfx ++ k)]
  | StoreUnit.replaceStored attrs =>
      (getStoredAttributes s).map (fun a => BatchOp.removeAttr (storePfx ++ a.1))
      ++ attrs.map (fun a => BatchOp.setAttr (storePfx ++ a.1) a.2)

/-- Run one scheduled store unit against the parent element attributes. -/
def flushOne (s : DState) (u : StoreUnit) : DState :=
  { s with elAttrs := (unitOps s u).foldl applyBatchOp s.elAttrs }

/-- Flush of the deferred transaction: run every pending unit in enqueue
order, then leave the queue empty. -/
def flush (s : DState) : DState :=
  s.pending.foldl flushOne { s with pending := [] }

/-- Attributes of the first text bearing item of an item sequence, stated the
way the spec words tier 1. -/
def firstTextAttrs : List RangeItem → Option (List (Key × Value))
  | [] => none
  | it :: rest => if it.type = ItemType.text then some it.attrs else firstTextAttrs rest

/-- Attributes of the first character node of a child list, used to word the
sibling walks of the spec. -/
def firstCharAttrs : List Child → Option (List (Key × Value))
  | [] => none
  | Child.character a :: _ => some a
  | Child.element :: rest => firstCharAttrs rest

/-- Reading the attribute store as the spec words it: filter the parent
attributes for the reserved marker and strip it to recover logical keys, only
consulted when the parent container has no children. -/
def storeRead (s : DState) : List (Key × Value) :=
  if s.children.length = 0 then
    (s.elAttrs.filter (fun a => storePfx.isPrefixOf a.1)).map
      (fun a => (a.1.drop storePfx.length, a.2))
  else []

/-- The collapsed resolution cascade stated the way the claim words it: the
sibling immediately before the caret if text bearing, else the sibling
immediately after, else the first text bearing sibling walking left from the
before position, else the first text bearing sibling walking right from the
after position, else the attribute store of the parent. -/
def specCollapsedAttrs (s : DState) : List (Key × Value) :=
  match getAttrsIfCharacter (childAt s.children ((s.offset : Int) - 1)) with
  | some a => a
  | none =>
    match getAttrsIfCharacter (childAt s.children (s.offset : Int)) with
    | some a => a
    | none =>
      match firstCharAttrs ((s.children.take (s.offset - 1)).reverse) with
      | some a => a
      | none =>
        match firstCharAttrs (s.children.drop (s.offset + 1)) with
        | some a => a
        | none => storeRead s

/-- The object returned by getAttributes: the source returns the result of
this._attrs Symbol.iterator, a cursor over the current entries that starts at
position zero and is consumed as it is iterated. -/
structure MapIterator where
  entries : List (Key × Value)
  pos : Nat
  deriving DecidableEq

/-- Embedding of getAttributes. -/
def getAttributesIter (s : DState) : MapIterator :=
  { entries := s.attrsMap, pos := 0 }

/-- Iterating the returned value to exhaustion: yields the entries still ahead
of the cursor and leaves the cursor at the end. -/
def drain (it : MapIterator) : List (Key × Value) × MapIterator :=
  (it.entries.drop it.pos, { it with pos := it.entries.length })

/-- Modelled from the spec: a plain Range handed to setRanges (range.js is not
under src). Its payload is abstract and its validity against the current tree
is abstracted to a flag tested by _checkRange. -/
structure MRange where
  data : Nat
  isValid : Bool
  deriving DecidableEq

/-- A live range as stored by the document selection: the wrapped range
payload plus the change notification subscription it holds. -/
structure LRange where
  data : Nat
  subId : Nat
  deriving DecidableEq

/-- Range bookkeeping state: the ranges currently held by the selection, the
set of active change notification subscriptions of the document, a fresh
subscription counter and the backward flag. -/
structure SelRState where
  ranges : List LRange
  subs : List Nat
  nextId : Nat
  backward : Bool
  deriving DecidableEq

/-- Modelled from the spec: LiveRange.detach unsubscribes from the change
notifications (liverange.js is not under src); detaching twice is a no-op. -/
def detachSub (subs : List Nat) (i : Nat) : List Nat :=
  subs.filter (fun j => j != i)

/-- Embedding of destroy: detach every live range currently held; the range
list itself is left in place. -/
def destroy (s : SelRState) : SelRState :=
  { s with subs := s.ranges.foldl (fun acc lr => detachSub acc lr.subId) s.subs }

/-- Embedding of _pushRange; _checkRange and LiveRange.createFromRange are
modelled from the spec: an invalid range is rejected (the whole call fails),
a valid one is wrapped into a live range holding a fresh subscription. -/
def pushRange (s : SelRState) (r : MRange) : Option SelRState :=
  if r.isValid then
    some { s with
      ranges := s.ranges ++ [{ data := r.data, subId := s.nextId }],
      subs := s.subs ++ [s.nextId],
      nextId := s.nextId + 1 }
  else none

/-- Modelled from the spec: the base Selection.setRanges (selection.js is not
under src) replaces all current ranges, pushing each new range in order
through the overridden _pushRange, and updates the backward flag. -/
def baseSetRanges (s : SelRState) (rs : List MRange) (back : Bool) : Option SelRState := do
  let s1 ← rs.foldlM pushRange { s with ranges := [] }
  pure { s1 with backward := back }

/-- Embedding of DocumentSelection.setRanges: destroy (detach everything held)
then delegate to the base class. -/
def docSetRanges (s : SelRState) (rs : List MRange) (back : Bool) : Option SelRState :=
  baseSetRanges (destroy s) rs back

/-- Modelled from the spec: the base removeAllRanges clears the range list. -/
def baseRemoveAllRanges (s : SelRState) : SelRState :=
  { s with ranges := [] }

/-- Embedding of DocumentSelection.removeAllRanges: destroy then delegate. -/
def docRemoveAllRanges (s : SelRState) : SelRState :=
  baseRemoveAllRanges (destroy s)

/-- Embedding of _popRange: pop the last range and detach it. On an empty
range list the source would fail; the state is returned unchanged, and no
claim exercises that case. -/
def popRange (s : SelRState) : SelRState :=
  match s.ranges.getLast? with
  | some lr => { s with ranges := s.ranges.dropLast, subs := detachSub s.subs lr.subId }
  | none => s

/-! ## Characterizations of the attribute operations -/

theorem setAttribute_eq (s : DState) (k : Key) (v : Value) :
    setAttribute s k v =
      { s with attrsMap := mapSet s.attrsMap k v,
               pending := if s.isCollapsed ∧ s.children.length = 0
                 then s.pending ++ [StoreUnit.setOne k v] else s.pending,
               fires := s.fires + 1 } := by
  simp only [setAttribute, storeAttribute]
  split <;> rfl

theorem removeAttribute_eq (s : DState) (k : Key) :
    removeAttribute s k =
      { s with attrsMap := s.attrsMap.filter (fun a => a.1 != k),
               pending := if s.isCollapsed ∧ s.children.length = 0
                 then s.pending ++ [StoreUnit.removeOne k] else s.pending,
               fires := s.fires + 1 } := by
  simp only [removeAttribute, removeStoredAttribute]
  split <;> rfl

theorem setAttributesTo_eq (s : DState) (l : List (Key × Value)) :
    setAttributesTo s l =
      { s with attrsMap := toMap l,
               pending := if s.isCollapsed ∧ s.children.length = 0
                 then s.pending ++ [StoreUnit.replaceStored (toMap l)] else s.pending,
               fires := s.fires + 1 } := by
  simp only [setAttributesTo, setStoredAttributesTo]
  split <;> rfl

theorem clearAttributes_eq (s : DState) :
    clearAttributes s =
      { s with attrsMap := [],
               pending := if s.isCollapsed ∧ s.children.length = 0
                 then s.pending ++ [StoreUnit.replaceStored []] else s.pending,
               fires := s.fires + 1 } := by
  simp only [clearAttributes, setStoredAttributesTo]
  split <;> rfl

/-! ## Map lemmas -/

theorem mapSet_fst (m : List (Key × Value)) (k : Key) (v : Value) :
    (mapSet m k v).map Prod.fst =
      if k ∈ m.map Prod.fst then m.map Prod.fst else m.map Prod.fst ++ [k] := by
  unfold mapSet
  split
  · simp only [List.map_map]
    refine List.map_congr_left ?_
    intro a _
    by_cases h : a.1 = k <;> simp [h]
  · simp

theorem mapSet_of_not_mem (m : List (Key × Value)) (k : Key) (v : Value)
    (h : k ∉ m.map Prod.fst) : mapSet m k v = m ++ [(k, v)] := by
  unfold mapSet
  exact if_neg h

theorem mapSet_pos (m : List (Key × Value)) (k : Key) (v : Value)
    (h : k ∈ m.map Prod.fst) :
    mapSet m k v = m.map (fun a => if a.1 = k then (k, v) else a) := by
  unfold mapSet
  rw [if_pos h]

theorem mapSet_idem (m : List (Key × Value)) (k : Key) (v : Value) :
    mapSet (mapSet m k v) k v = mapSet m k v := by
  by_cases hk : k ∈ m.map Prod.fst
  · have hmem : k ∈ (mapSet m k v).map Prod.fst := by
      rw [mapSet_fst, if_pos hk]; exact hk
    rw [mapSet_pos _ _ _ hmem, mapSet_pos _ _ _ hk, List.map_map]
    refine List.map_congr_left ?_
    intro a _
    by_cases h : a.1 = k <;> simp [Function.comp, h]
  · have h1 : mapSet m k v = m ++ [(k, v)] := mapSet_of_not_mem m k v hk
    have hmem : k ∈ (mapSet m k v).map Prod.fst := by
      rw [mapSet_fst, if_neg hk]
      simp
    have hm : ∀ a ∈ m, a.1 ≠ k := by
      intro a ha hak
      exact hk (hak ▸ List.mem_map_of_mem Prod.fst ha)
    rw [mapSet_pos _ _ _ hmem, h1, List.map_append]
    congr 1
    · refine (List.map_congr_left ?_).trans (List.map_id m)
      intro a ha
      simp [hm a ha]
    · simp

/-! ## Claim theorems for the simple attribute operations -/

/-- C4: every attribute mutating operation (setAttribute, removeAttribute,
setAttributesTo, clearAttributes) schedules a store mutation exactly when the
selection is collapsed and the parent container has zero children; in every
other context the pending queue is untouched, and no operation ever mutates
the parent element attributes synchronously (the operations are total, so none
raises). -/
theorem attrOps_store_guard (s : DState) (k : Key) (v : Value) (l : List (Key × Value)) :
    ((setAttribute s k v).pending
        = if s.isCollapsed ∧ s.children.length = 0
          then s.pending ++ [StoreUnit.setOne k v] else s.pending)
    ∧ (setAttribute s k v).elAttrs = s.elAttrs
    ∧ ((removeAttribute s k).pending
        = if s.isCollapsed ∧ s.children.length = 0
          then s.pending ++ [StoreUnit.removeOne k] else s.pending)
    ∧ (removeAttribute s k).elAttrs = s.elAttrs
    ∧ ((setAttributesTo s l).pending
        = if s.isCollapsed ∧ s.children.length = 0
          then s.pending ++ [StoreUnit.replaceStored (toMap l)] else s.pending)
    ∧ (setAttributesTo s l).elAttrs = s.elAttrs
    ∧ ((clearAttributes s).pending
        = if s.isCollapsed ∧ s.children.length = 0
          then s.pending ++ [StoreUnit.replaceStored []] else s.pending)
    ∧ (clearAttributes s).elAttrs = s.elAttrs := by
  rw [setAttribute_eq, removeAttribute_eq, setAttributesTo_eq, clearAttributes_eq]
  exact ⟨rfl, rfl, rfl, rfl, rfl, rfl, rfl, rfl⟩

/-- C7: two consecutive identical setAttribute calls leave the attribute map
in the same observable state as one, yet each call unconditionally increments
the emitted notification count, even though the second call does not change
the map. -/
theorem setAttribute_idempotent_always_fires (s : DState) (k : Key) (v : Value) :
    (setAttribute (setAttribute s k v) k v).attrsMap = (setAttribute s k v).attrsMap
    ∧ (setAttribute s k v).fires = s.fires + 1
    ∧ (setAttribute (setAttribute s k v) k v).fires = s.fires + 2 := by
  rw [setAttribute_eq, setAttribute_eq]
  exact ⟨mapSet_idem s.attrsMap k v, rfl, rfl⟩

/-! ## Tier 1 scan -/

theorem scan_foldl_frozen (items : List RangeItem) (a : List (Key × Value)) :
    items.foldl
      (fun attrs it => if it.type = ItemType.text ∧ attrs = none then some it.attrs else attrs)
      (some a) = some a := by
  induction items with
  | nil => rfl
  | cons it rest ih => simpa using ih

theorem scanItems_eq (items : List RangeItem) :
    scanItems items = firstTextAttrs items := by
  induction items with
  | nil => rfl
  | cons it rest ih =>
    unfold scanItems firstTextAttrs
    by_cases h : it.type = ItemType.text
    · rw [List.foldl_cons, if_pos ⟨h, rfl⟩, if_pos h]
      exact scan_foldl_frozen rest it.attrs
    · rw [List.foldl_cons, if_neg (fun hc => h hc.1), if_neg h]
      exact ih

/-- C3 amended: the fire count of one resolution pass: a pass that replaces the
attribute map emits the change notification exactly once, while a pass whose
resolution comes up null (a non collapsed selection whose first range holds no
text bearing item) goes through clearAttributes and therefore emits twice. -/
theorem resolution_fire_count (s : DState) :
    (updateAttributes s).fires =
      s.fires + (if s.isCollapsed = false ∧ firstTextAttrs s.rangeItems = none then 2 else 1) := by
  unfold updateAttributes
  by_cases hc : s.isCollapsed = false
  · rw [if_pos hc, scanItems_eq]
    rcases h : firstTextAttrs s.rangeItems with _ | a
    · have hcond : s.isCollapsed = false ∧ (none : Option (List (Key × Value))) = none :=
        ⟨hc, rfl⟩
      rw [if_pos hcond, clearAttributes_eq]
    · have hcond : ¬ (s.isCollapsed = false ∧ some a = none) := by simp
      rw [if_neg hcond]
  · have hcond : ¬ (s.isCollapsed = false ∧ firstTextAttrs s.rangeItems = none) :=
      fun hx => hc hx.1
    rw [if_neg hc, if_neg hcond]

/-- A non collapsed selection over a range with a single non text item: the
resolution pass resolves to no attributes and goes through clearAttributes. -/
def noTextState : DState :=
  { isCollapsed := false, children := [], offset := 0,
    rangeItems := [{ type := ItemType.other, attrs := [] }],
    elAttrs := [], attrsMap := [("x".toList, 1)], pending := [], fires := 0 }

/-- C3 counterexample: on noTextState one resolution pass emits the
change:attribute notification twice (once from the nested clearAttributes call
and once from the pass itself), not exactly once as the claim states. -/
theorem resolution_double_fire_cex :
    (updateAttributes noTextState).fires ≠ noTextState.fires + 1 := by decide

/-! ## getAttributes iterator -/

/-- A selection whose attribute map holds one pair. -/
def oneAttrState : DState :=
  { isCollapsed := true, children := [], offset := 0, rangeItems := [],
    elAttrs := [], attrsMap := [("x".toList, 1)], pending := [], fires := 0 }

/-- C9 counterexample: the value returned by getAttributes is not restartable.
Iterating it to exhaustion and iterating the same value again does not yield
the same sequence: the second pass is empty while the first yielded a pair. -/
theorem getAttributes_restartable_cex :
    ¬ ((drain (drain (getAttributesIter oneAttrState)).2).1
        = (drain (getAttributesIter oneAttrState)).1) := by decide

/-- C9 amended: getAttributes returns a lazy finite one shot cursor over the
current attribute map: iterating it to exhaustion yields exactly the (key,
value) pairs of the map in order, and iterating the same returned value again
yields the empty sequence. -/
theorem getAttributes_iter_one_shot (s : DState) :
    (drain (getAttributesIter s)).1 = s.attrsMap
    ∧ (drain (drain (getAttributesIter s)).2).1 = [] := by
  constructor
  · simp [drain, getAttributesIter]
  · simp [drain, getAttributesIter]

/-! ## Non collapsed resolution (tier 1) -/

theorem updAttrs_nc_map (s : DState) (h : s.isCollapsed = false) :
    (updateAttributes s).attrsMap =
      (match firstTextAttrs s.rangeItems with
       | some a => toMap a
       | none => ([] : List (Key × Value))) := by
  unfold updateAttributes
  rw [if_pos h, scanItems_eq]
  rcases hf : firstTextAttrs s.rangeItems with _ | a
  · simp [clearAttributes_eq]
  · simp

theorem updAttrs_nc_pending (s : DState) (h : s.isCollapsed = false) :
    (updateAttributes s).pending = s.pending := by
  unfold updateAttributes
  rw [if_pos h]
  rcases hf : scanItems s.rangeItems with _ | a
  · simp [clearAttributes_eq, h]
  · simp

/-- C1: for a non collapsed selection, one resolution pass sets the attribute
map to exactly the attribute set of the first text bearing item found while
scanning the first range in document order (the attributes of later items
cannot matter, since firstTextAttrs never inspects anything past the first
text item), and to the empty set when the range holds no text bearing item.
Resolution does not fall through to the collapsed caret tiers: the resulting
map depends only on the range items, never on the siblings at the caret or on
the stored attributes, and the attribute store is left untouched. -/
theorem nonCollapsed_resolution (s : DState) (h : s.isCollapsed = false) :
    ((updateAttributes s).attrsMap =
      (match firstTextAttrs s.rangeItems with
       | some a => toMap a
       | none => ([] : List (Key × Value))))
    ∧ (updateAttributes s).pending = s.pending
    ∧ ∀ t : DState, t.isCollapsed = false → t.rangeItems = s.rangeItems →
        (updateAttributes t).attrsMap = (updateAttributes s).attrsMap := by
  refine ⟨updAttrs_nc_map s h, updAttrs_nc_pending s h, ?_⟩
  intro t ht hrt
  rw [updAttrs_nc_map t ht, updAttrs_nc_map s h, hrt]

/-- A non collapsed selection whose first range yields a non text item, then
a text item carrying bold, then a text item carrying italic. -/
def twoTextState : DState :=
  { isCollapsed := false, children := [Child.character [("italic".toList, 2)]], offset := 0,
    rangeItems := [{ type := ItemType.other, attrs := [] },
                   { type := ItemType.text, attrs := [("bold".toList, 1)] },
                   { type := ItemType.text, attrs := [("italic".toList, 2)] }],
    elAttrs := [], attrsMap := [], pending := [], fires := 0 }

theorem nonCollapsed_resolution_witness :
    (updateAttributes twoTextState).attrsMap = [("bold".toList, 1)] :=
  ((nonCollapsed_resolution twoTextState rfl).1).trans (by decide)

/-! ## Collapsed resolution (tiers 2 to 6) -/

theorem walkLeft_eq (children : List Child) (i : Nat) :
    walkLeft children i = firstCharAttrs ((children.take i).reverse) := by
  induction i with
  | zero => rfl
  | succ j ih =>
    unfold walkLeft
    by_cases hj : j < children.length
    · have hx : children[j]? = some children[j] := List.getElem?_eq_getElem hj
      rw [hx, List.take_succ, hx]
      simp only [Option.toList_some, List.reverse_append, List.reverse_cons, List.reverse_nil,
        List.nil_append, List.singleton_append]
      cases hcj : children[j] with
      | character a => rfl
      | element =>
        simp only [getAttrsIfCharacter, firstCharAttrs]
        exact ih
    · have hx : children[j]? = none := List.getElem?_eq_none (by omega)
      rw [hx]
      have h1 : children.take (j + 1) = children := List.take_of_length_le (by omega)
      have h2 : children.take j = children := List.take_of_length_le (by omega)
      rw [h1]
      have := ih
      rw [h2] at this
      simpa [getAttrsIfCharacter] using this

theorem walkRightFuel_eq (children : List Child) (fuel i : Nat)
    (h : children.length ≤ i + 1 + fuel) :
    walkRightFuel children fuel i = firstCharAttrs (children.drop (i + 1)) := by
  induction fuel generalizing i with
  | zero =>
    have : children.drop (i + 1) = [] := List.drop_eq_nil_of_le (by omega)
    rw [this]
    rfl
  | succ fuel ih =>
    unfold walkRightFuel
    by_cases hi : i + 1 < children.length
    · rw [if_pos hi]
      have hx : children[i + 1]? = some children[i + 1] := List.getElem?_eq_getElem hi
      rw [hx, List.drop_eq_getElem_cons hi]
      cases hci : children[i + 1] with
      | character a => rfl
      | element =>
        simp only [getAttrsIfCharacter, firstCharAttrs]
        exact ih (i + 1) (by omega)
    · rw [if_neg hi]
      have : children.drop (i + 1) = [] := List.drop_eq_nil_of_le (by omega)
      rw [this]
      rfl

theorem walkRight_eq (children : List Child) (i : Nat) :
    walkRight children i = firstCharAttrs (children.drop (i + 1)) :=
  walkRightFuel_eq children children.length i (by omega)

theorem nodeBefore_eq (children : List Child) (offset : Nat) :
    ((if offset = 0 then none
      else if offset - 1 < children.length then some (offset - 1)
      else none : Option Nat).bind (fun i => children[i]?))
      = childAt children ((offset : Int) - 1) := by
  cases offset with
  | zero => simp [childAt]
  | succ j =>
    have h0 : ¬ (j + 1 = 0) := by omega
    rw [if_neg h0]
    have h1 : ((j + 1 : Nat) : Int) - 1 = (j : Int) := by push_cast; ring
    rw [h1]
    unfold childAt
    rw [if_neg (by omega : ¬ (j : Int) < 0)]
    simp only [Int.toNat_ofNat, Nat.add_sub_cancel]
    by_cases hj : j < children.length
    · rw [if_pos hj]
      rfl
    · rw [if_neg hj, List.getElem?_eq_none (by omega)]
      rfl

theorem nodeAfter_eq (children : List Child) (offset : Nat) :
    ((if offset < children.length then some offset else none : Option Nat).bind
      (fun i => children[i]?))
      = childAt children (offset : Int) := by
  unfold childAt
  rw [if_neg (by omega : ¬ (offset : Int) < 0)]
  simp only [Int.toNat_ofNat]
  by_cases h : offset < children.length
  · rw [if_pos h]
    rfl
  · rw [if_neg h, List.getElem?_eq_none (by omega)]
    rfl

theorem walkLeft_glue (children : List Child) (offset : Nat) (hv : offset ≤ children.length) :
    (match (if offset = 0 then none
            else if offset - 1 < children.length then some (offset - 1)
            else none : Option Nat) with
     | some i => walkLeft children i
     | none => none)
      = firstCharAttrs ((children.take (offset - 1)).reverse) := by
  cases offset with
  | zero => rfl
  | succ j =>
    have h0 : ¬ (j + 1 = 0) := by omega
    rw [if_neg h0, if_pos (by omega : j + 1 - 1 < children.length)]
    simpa using walkLeft_eq children j

theorem walkRight_glue (children : List Child) (offset : Nat) (hv : offset ≤ children.length) :
    (match (if offset < children.length then some offset else none : Option Nat) with
     | some i => walkRight children i
     | none => none)
      = firstCharAttrs (children.drop (offset + 1)) := by
  by_cases h : offset < children.length
  · rw [if_pos h]
    exact walkRight_eq children offset
  · rw [if_neg h]
    rw [List.drop_eq_nil_of_le (by omega)]
    rfl

theorem stored_eq_storeRead (s : DState) (hc : s.isCollapsed = true) :
    getStoredAttributes s = storeRead s := by
  unfold getStoredAttributes storeRead
  simp [hc]

theorem resolveCollapsed_eq_spec (s : DState) (hc : s.isCollapsed = true)
    (hv : s.offset ≤ s.children.length) :
    resolveCollapsed s = specCollapsedAttrs s := by
  unfold resolveCollapsed specCollapsedAttrs
  dsimp only
  rw [nodeBefore_eq s.children s.offset, nodeAfter_eq s.children s.offset,
    walkLeft_glue s.children s.offset hv, walkRight_glue s.children s.offset hv,
    stored_eq_storeRead s hc]
  rcases h0 : getAttrsIfCharacter (childAt s.children ((s.offset : Int) - 1)) with _ | a0
  · rcases h1 : getAttrsIfCharacter (childAt s.children (s.offset : Int)) with _ | a1
    · rcases h2 : firstCharAttrs ((s.children.take (s.offset - 1)).reverse) with _ | a2
      · rcases h3 : firstCharAttrs (s.children.drop (s.offset + 1)) with _ | a3
        · simp
        · simp
      · simp
    · simp
  · simp

/-- C2: for a collapsed selection at a valid caret position, one resolution
pass sets the attribute map to the cascade the spec words, in strict priority
order with the first success winning: the sibling immediately before the
caret when text bearing, else the sibling immediately after, else the first
text bearing sibling walking left from the before position, else the first
text bearing sibling walking right from the after position, else the decoded
reserved key attribute store of the parent container (which, per the store
reading contract, is consulted when the container has no children). -/
theorem collapsed_resolution_tiers (s : DState) (hc : s.isCollapsed = true)
    (hv : s.offset ≤ s.children.length) :
    (updateAttributes s).attrsMap = toMap (specCollapsedAttrs s) := by
  have h1 : ¬ (s.isCollapsed = false) := by simp [hc]
  unfold updateAttributes
  rw [if_neg h1]
  dsimp only
  rw [resolveCollapsed_eq_spec s hc hv]

/-- A caret in an empty container whose element carries a stored bold
attribute under the reserved key. -/
def storedBoldState : DState :=
  { isCollapsed := true, children := [], offset := 0, rangeItems := [],
    elAttrs := [(storePfx ++ "bold".toList, 1)], attrsMap := [], pending := [], fires := 0 }

theorem collapsed_resolution_tiers_witness :
    (updateAttributes storedBoldState).attrsMap = [("bold".toList, 1)] :=
  (collapsed_resolution_tiers storedBoldState rfl (by decide)).trans (by decide)

/-- C10: a resolution pass over a collapsed selection never schedules any
store mutation and never touches the parent element attributes: tier 6 hands
the branch a generator object, which is truthy even when it yields nothing,
so the clearAttributes branch of the pass (the only path by which resolution
could write the store) is unreachable when the selection is collapsed. The
pass only replaces the in-memory map with the resolved list (possibly empty)
and fires exactly once. -/
theorem collapsed_no_store_write (s : DState) (hc : s.isCollapsed = true) :
    (updateAttributes s).pending = s.pending
    ∧ (updateAttributes s).elAttrs = s.elAttrs
    ∧ (updateAttributes s).fires = s.fires + 1
    ∧ (updateAttributes s).attrsMap = toMap (resolveCollapsed s) := by
  have h1 : ¬ (s.isCollapsed = false) := by simp [hc]
  unfold updateAttributes
  rw [if_neg h1]
  exact ⟨rfl, rfl, rfl, rfl⟩

/-- A caret in an empty container with no stored attributes and a stale
in-memory map. -/
def emptyCaretState : DState :=
  { isCollapsed := true, children := [], offset := 0, rangeItems := [],
    elAttrs := [], attrsMap := [("x".toList, 1)], pending := [], fires := 0 }

theorem collapsed_no_store_write_witness :
    (updateAttributes emptyCaretState).pending = []
    ∧ (updateAttributes emptyCaretState).attrsMap = [] :=
  ⟨((collapsed_no_store_write emptyCaretState rfl).1).trans (by decide),
   ((collapsed_no_store_write emptyCaretState rfl).2.2.2).trans (by decide)⟩

/-! ## Store key encoding -/

theorem isPrefixOf_append_self (p k : Key) : p.isPrefixOf (p ++ k) = true := by
  induction p with
  | nil => simp [List.isPrefixOf]
  | cons c p ih => simp [List.isPrefixOf, ih]

theorem storePfx_isPrefixOf_append (k : Key) :
    storePfx.isPrefixOf (storePfx ++ k) = true :=
  isPrefixOf_append_self storePfx k

theorem drop_append_storePfx (k : Key) :
    (storePfx ++ k).drop storePfx.length = k :=
  List.drop_left storePfx k

theorem append_drop_of_isPrefixOf_gen (p : Key) (k : Key) (h : p.isPrefixOf k = true) :
    p ++ k.drop p.length = k := by
  induction p generalizing k with
  | nil => simp
  | cons c p ih =>
    cases k with
    | nil =>
      simp [List.isPrefixOf] at h
    | cons d k =>
      have h2 := h
      simp only [List.isPrefixOf, Bool.and_eq_true, beq_iff_eq] at h2
      obtain ⟨rfl, h3⟩ := h2
      have h4 : (c :: k).drop (c :: p).length = k.drop p.length := by
        simp
      rw [h4, List.cons_append]
      rw [ih k h3]

theorem append_drop_of_isPrefixOf (k : Key) (h : storePfx.isPrefixOf k = true) :
    storePfx ++ k.drop storePfx.length = k :=
  append_drop_of_isPrefixOf_gen storePfx k h

theorem storePfx_append_inj : Function.Injective (fun k : Key => storePfx ++ k) := by
  intro a b h
  exact List.append_cancel_left h

/-! ## Fold lemmas for the batch mutations -/

theorem foldl_removeAll (K : List Key) (el : List (Key × Value)) :
    K.foldl (fun acc k => acc.filter (fun a => a.1 != k)) el
      = el.filter (fun a => decide (a.1 ∉ K)) := by
  induction K generalizing el with
  | nil => simp
  | cons k K ih =>
    rw [List.foldl_cons, ih, List.filter_filter]
    refine List.filter_congr ?_
    intro a _
    by_cases h1 : a.1 = k <;> by_cases h2 : a.1 ∈ K <;> simp [h1, h2]

theorem foldl_mapSet_append (m : List (Key × Value)) (base : List (Key × Value))
    (hdisj : ∀ a ∈ m, a.1 ∉ base.map Prod.fst)
    (hm : (m.map Prod.fst).Nodup) :
    m.foldl (fun acc a => mapSet acc a.1 a.2) base = base ++ m := by
  induction m generalizing base with
  | nil => simp
  | cons a m ih =>
    rw [List.foldl_cons]
    have h1 : mapSet base a.1 a.2 = base ++ [a] := by
      rw [mapSet_of_not_mem _ _ _ (hdisj a (List.mem_cons_self a m))]
    rw [h1]
    have hdisj2 : ∀ b ∈ m, b.1 ∉ (base ++ [a]).map Prod.fst := by
      intro b hb
      rw [List.map_append, List.mem_append]
      rintro (hb1 | hb2)
      · exact hdisj b (List.mem_cons_of_mem a hb) hb1
      · have hba : b.1 = a.1 := by simpa using hb2
        have hnm : a.1 ∉ m.map Prod.fst := by
          rw [List.map_cons, List.nodup_cons] at hm
          exact hm.1
        exact hnm (hba ▸ List.mem_map_of_mem Prod.fst hb)
    have hm2 : (m.map Prod.fst).Nodup := by
      rw [List.map_cons, List.nodup_cons] at hm
      exact hm.2
    rw [ih (base ++ [a]) hdisj2 hm2]
    simp

theorem mapSet_fst_nodup (m : List (Key × Value)) (k : Key) (v : Value)
    (h : (m.map Prod.fst).Nodup) : ((mapSet m k v).map Prod.fst).Nodup := by
  rw [mapSet_fst]
  by_cases hk : k ∈ m.map Prod.fst
  · rw [if_pos hk]
    exact h
  · rw [if_neg hk]
    refine List.Nodup.append h (List.nodup_singleton k) ?_
    intro x hx hx2
    rw [List.mem_singleton] at hx2
    exact hk (hx2 ▸ hx)

theorem toMap_fst_nodup (l : List (Key × Value)) : ((toMap l).map Prod.fst).Nodup := by
  unfold toMap
  suffices h : ∀ acc : List (Key × Value), (acc.map Prod.fst).Nodup →
      ((l.foldl (fun acc a => mapSet acc a.1 a.2) acc).map Prod.fst).Nodup by
    exact h [] (by simp)
  induction l with
  | nil => intro acc h; simpa using h
  | cons a l ih =>
    intro acc h
    rw [List.foldl_cons]
    exact ih _ (mapSet_fst_nodup _ _ _ h)

theorem toMap_eq_self (m : List (Key × Value)) (hm : (m.map Prod.fst).Nodup) :
    toMap m = m := by
  unfold toMap
  simpa using foldl_mapSet_append m [] (by simp) hm

/-! ## Effect of a scheduled replaceStored unit -/

theorem getStoredAttributes_pos (t : DState) (hc : t.isCollapsed = true)
    (hch : t.children.length = 0) :
    getStoredAttributes t
      = (t.elAttrs.filter (fun a => storePfx.isPrefixOf a.1)).map
          (fun a => (a.1.drop storePfx.length, a.2)) := by
  unfold getStoredAttributes
  rw [if_pos ⟨hc, hch⟩]

theorem flushOne_replace (t : DState) (m : List (Key × Value)) (hc : t.isCollapsed = true)
    (hch : t.children.length = 0) (hm : (m.map Prod.fst).Nodup) :
    (flushOne t (StoreUnit.replaceStored m)).elAttrs
      = t.elAttrs.filter (fun a => !(storePfx.isPrefixOf a.1))
        ++ m.map (fun a => (storePfx ++ a.1, a.2)) := by
  unfold flushOne unitOps
  rw [List.foldl_append]
  have hrem :
      ((getStoredAttributes t).map (fun a => BatchOp.removeAttr (storePfx ++ a.1))).foldl
          applyBatchOp t.elAttrs
        = t.elAttrs.filter (fun a => !(storePfx.isPrefixOf a.1)) := by
    rw [List.foldl_map]
    have hK :
        (getStoredAttributes t).foldl (fun acc a => applyBatchOp acc (BatchOp.removeAttr (storePfx ++ a.1))) t.elAttrs
          = ((getStoredAttributes t).map (fun a => storePfx ++ a.1)).foldl
              (fun acc k => acc.filter (fun x => x.1 != k)) t.elAttrs := by
      rw [List.foldl_map]
      rfl
    rw [hK, foldl_removeAll]
    refine List.filter_congr ?_
    intro a ha
    by_cases hp : storePfx.isPrefixOf a.1 = true
    · have hmem : a.1 ∈ (getStoredAttributes t).map (fun a => storePfx ++ a.1) := by
        rw [getStoredAttributes_pos t hc hch, List.map_map]
        have h1 : a ∈ t.elAttrs.filter (fun a => storePfx.isPrefixOf a.1) :=
          List.mem_filter.mpr ⟨ha, hp⟩
        have h2 := List.mem_map_of_mem
          ((fun a => storePfx ++ a.1) ∘ (fun a : Key × Value => (a.1.drop storePfx.length, a.2))) h1
        simpa [Function.comp, append_drop_of_isPrefixOf a.1 hp] using h2
      simp [hmem, hp]
    · have hnmem : a.1 ∉ (getStoredAttributes t).map (fun a => storePfx ++ a.1) := by
        intro hmem
        rcases List.mem_map.mp hmem with ⟨b, _, hb2⟩
        rw [← hb2] at hp
        exact hp (storePfx_isPrefixOf_append b.1)
      simp [hnmem, hp]
  rw [hrem]
  rw [List.foldl_map]
  have hsets :
      m.foldl (fun acc a => applyBatchOp acc (BatchOp.setAttr (storePfx ++ a.1) a.2))
          (t.elAttrs.filter (fun a => !(storePfx.isPrefixOf a.1)))
        = (m.map (fun a => (storePfx ++ a.1, a.2))).foldl (fun acc a => mapSet acc a.1 a.2)
            (t.elAttrs.filter (fun a => !(storePfx.isPrefixOf a.1))) := by
    rw [List.foldl_map]
    rfl
  rw [hsets]
  refine foldl_mapSet_append _ _ ?_ ?_
  · intro b hb
    rcases List.mem_map.mp hb with ⟨c, _, rfl⟩
    intro hmem
    rcases List.mem_map.mp hmem with ⟨d, hd1, hd2⟩
    have hd3 := (List.mem_filter.mp hd1).2
    rw [hd2] at hd3
    rw [storePfx_isPrefixOf_append c.1] at hd3
    simp at hd3
  · rw [List.map_map]
    have hcomp : (Prod.fst ∘ fun a : Key × Value => (storePfx ++ a.1, a.2))
        = (fun k : Key => storePfx ++ k) ∘ Prod.fst := rfl
    rw [hcomp, ← List.map_map]
    exact (List.nodup_map_iff storePfx_append_inj).mpr hm

theorem decode_append_encoded (base m : List (Key × Value))
    (hbase : ∀ a ∈ base, storePfx.isPrefixOf a.1 = false) :
    ((base ++ m.map (fun a => (storePfx ++ a.1, a.2))).filter
        (fun a => storePfx.isPrefixOf a.1)).map
      (fun a => (a.1.drop storePfx.length, a.2)) = m := by
  rw [List.filter_append]
  have h1 : base.filter (fun a => storePfx.isPrefixOf a.1) = [] := by
    refine List.filter_eq_nil_iff.mpr ?_
    intro a ha
    rw [hbase a ha]
    exact Bool.false_ne_true
  have h2 : (m.map (fun a => (storePfx ++ a.1, a.2))).filter
      (fun a => storePfx.isPrefixOf a.1) = m.map (fun a => (storePfx ++ a.1, a.2)) := by
    refine List.filter_eq_self.mpr ?_
    intro a ha
    rcases List.mem_map.mp ha with ⟨b, _, rfl⟩
    exact storePfx_isPrefixOf_append b.1
  rw [h1, h2, List.nil_append, List.map_map]
  have hid : ((fun a : Key × Value => (a.1.drop storePfx.length, a.2)) ∘
      (fun a : Key × Value => (storePfx ++ a.1, a.2))) = id := by
    funext a
    simp [Function.comp, drop_append_storePfx]
  rw [hid, List.map_id]

theorem filter_nonPfx_of_all (el : List (Key × Value))
    (h : ∀ a ∈ el, storePfx.isPrefixOf a.1 = false) :
    el.filter (fun a => !(storePfx.isPrefixOf a.1)) = el := by
  refine List.filter_eq_self.mpr ?_
  intro a ha
  rw [h a ha]
  rfl

theorem mem_filter_nonPfx (el : List (Key × Value)) (a : Key × Value)
    (ha : a ∈ el.filter (fun a => !(storePfx.isPrefixOf a.1))) :
    storePfx.isPrefixOf a.1 = false := by
  have := (List.mem_filter.mp ha).2
  simpa using this

theorem encoded_filter_nonPfx (m : List (Key × Value)) :
    (m.map (fun a => (storePfx ++ a.1, a.2))).filter
      (fun a => !(storePfx.isPrefixOf a.1)) = [] := by
  refine List.filter_eq_nil_iff.mpr ?_
  intro a ha
  rcases List.mem_map.mp ha with ⟨b, _, rfl⟩
  simp [storePfx_isPrefixOf_append b.1]

/-! ## Flush plumbing -/

theorem flush_one_unit (s : DState) (u : StoreUnit) (h : s.pending = [u]) :
    flush s = flushOne { s with pending := [] } u := by
  unfold flush
  rw [h]
  rfl

theorem flush_two_units (s : DState) (u1 u2 : StoreUnit) (h : s.pending = [u1, u2]) :
    flush s = flushOne (flushOne { s with pending := [] } u1) u2 := by
  unfold flush
  rw [h]
  rfl

theorem updAttrs_map_collapsed (t : DState) (hct : t.isCollapsed = true) :
    (updateAttributes t).attrsMap = toMap (resolveCollapsed t) := by
  have h1 : ¬ (t.isCollapsed = false) := by simp [hct]
  unfold updateAttributes
  rw [if_neg h1]

theorem resolveCollapsed_nil (t : DState) (h : t.children.length = 0) :
    resolveCollapsed t = getStoredAttributes t := by
  have hnil : t.children = [] := List.length_eq_zero.mp h
  unfold resolveCollapsed
  rw [hnil]
  simp [getAttrsIfCharacter]

/-- C5: under the collapsed and childless parent guard, setAttributesTo
schedules exactly one deferred store unit (a single enqueue appended to the
open transaction queue) and touches nothing synchronously: the parent element
attributes are unchanged at call time. The scheduled unit consists of the
removals of every reserved key stored on the parent at flush time followed by
the writes of the new attribute set under encoded keys, and running it leaves
the parent holding exactly the new set in the store. -/
theorem setAttributesTo_store_unit (s : DState) (l : List (Key × Value))
    (hg : s.isCollapsed = true ∧ s.children.length = 0) :
    (setAttributesTo s l).pending = s.pending ++ [StoreUnit.replaceStored (toMap l)]
    ∧ (setAttributesTo s l).elAttrs = s.elAttrs
    ∧ (∀ t : DState, unitOps t (StoreUnit.replaceStored (toMap l)) =
        (getStoredAttributes t).map (fun a => BatchOp.removeAttr (storePfx ++ a.1))
        ++ (toMap l).map (fun a => BatchOp.setAttr (storePfx ++ a.1) a.2))
    ∧ (∀ t : DState, t.isCollapsed = true → t.children.length = 0 →
        (flushOne t (StoreUnit.replaceStored (toMap l))).elAttrs
          = t.elAttrs.filter (fun a => !(storePfx.isPrefixOf a.1))
            ++ (toMap l).map (fun a => (storePfx ++ a.1, a.2))) := by
  refine ⟨?_, ?_, fun t => rfl,
    fun t htc htch => flushOne_replace t (toMap l) htc htch (toMap_fst_nodup l)⟩
  · rw [setAttributesTo_eq]
    simp [hg.1, hg.2]
  · rw [setAttributesTo_eq]

/-- A caret in an empty container, with a stale stored attribute on the
container and an empty pending queue. -/
def emptyStoreState : DState :=
  { isCollapsed := true, children := [], offset := 0, rangeItems := [],
    elAttrs := [(storePfx ++ "old".toList, 9), ("id".toList, 3)],
    attrsMap := [], pending := [], fires := 0 }

theorem setAttributesTo_store_unit_witness :
    (setAttributesTo emptyStoreState [("bold".toList, 1)]).pending
      = [StoreUnit.replaceStored [("bold".toList, 1)]]
    ∧ (setAttributesTo emptyStoreState [("bold".toList, 1)]).elAttrs
      = emptyStoreState.elAttrs :=
  ⟨((setAttributesTo_store_unit emptyStoreState [("bold".toList, 1)] ⟨rfl, rfl⟩).1).trans
      (by decide),
   (setAttributesTo_store_unit emptyStoreState [("bold".toList, 1)] ⟨rfl, rfl⟩).2.1⟩

theorem filter_nonPfx_idem (el : List (Key × Value)) :
    (el.filter (fun a => !(storePfx.isPrefixOf a.1))).filter
        (fun a => !(storePfx.isPrefixOf a.1))
      = el.filter (fun a => !(storePfx.isPrefixOf a.1)) := by
  rw [List.filter_filter]
  refine List.filter_congr ?_
  intro a _
  simp [Bool.and_self]

/-- C6: round trip through the store for a collapsed selection in an empty
container with an empty pending queue. After setAttributesTo(X) and a flush of
the open transaction, re-deriving resolution for the same position yields
exactly the persisted map of X; after a subsequent clearAttributes() (which
schedules its own store clearing unit) and a flush of both scheduled units,
the same re-derivation yields the empty attribute set, not X. -/
theorem store_round_trip (s : DState) (X : List (Key × Value))
    (hc : s.isCollapsed = true) (hch : s.children.length = 0) (hp : s.pending = []) :
    (updateAttributes (flush (setAttributesTo s X))).attrsMap = toMap X
    ∧ (updateAttributes (flush (clearAttributes (setAttributesTo s X)))).attrsMap = [] := by
  have hs1 : setAttributesTo s X =
      { s with attrsMap := toMap X,
               pending := [StoreUnit.replaceStored (toMap X)],
               fires := s.fires + 1 } := by
    rw [setAttributesTo_eq, if_pos ⟨hc, hch⟩, hp, List.nil_append]
  constructor
  · set t1 : DState := { s with attrsMap := toMap X, pending := [], fires := s.fires + 1 }
      with ht1
    have hfa : flush (setAttributesTo s X) =
        flushOne t1 (StoreUnit.replaceStored (toMap X)) := by
      rw [hs1]
      exact flush_one_unit _ _ rfl
    rw [hfa]
    rw [updAttrs_map_collapsed (flushOne t1 (StoreUnit.replaceStored (toMap X))) hc]
    rw [resolveCollapsed_nil (flushOne t1 (StoreUnit.replaceStored (toMap X))) hch]
    have hst : getStoredAttributes (flushOne t1 (StoreUnit.replaceStored (toMap X)))
        = toMap X := by
      rw [getStoredAttributes_pos (flushOne t1 (StoreUnit.replaceStored (toMap X))) hc hch]
      rw [flushOne_replace t1 (toMap X) hc hch (toMap_fst_nodup X)]
      exact decode_append_encoded _ _ (fun a ha => mem_filter_nonPfx _ a ha)
    rw [hst, toMap_eq_self _ (toMap_fst_nodup X)]
  · set t2 : DState := { s with attrsMap := [], pending := [], fires := s.fires + 2 } with ht2
    have hs2 : clearAttributes (setAttributesTo s X) =
        { t2 with pending := [StoreUnit.replaceStored (toMap X), StoreUnit.replaceStored []] } := by
      rw [hs1, clearAttributes_eq, if_pos ⟨hc, hch⟩, ht2]
      rfl
    have hfb : flush (clearAttributes (setAttributesTo s X)) =
        flushOne (flushOne t2 (StoreUnit.replaceStored (toMap X))) (StoreUnit.replaceStored []) := by
      rw [hs2]
      exact flush_two_units _ _ _ rfl
    rw [hfb]
    rw [updAttrs_map_collapsed
      (flushOne (flushOne t2 (StoreUnit.replaceStored (toMap X))) (StoreUnit.replaceStored [])) hc]
    rw [resolveCollapsed_nil
      (flushOne (flushOne t2 (StoreUnit.replaceStored (toMap X))) (StoreUnit.replaceStored [])) hch]
    have hE2 : (flushOne (flushOne t2 (StoreUnit.replaceStored (toMap X)))
        (StoreUnit.replaceStored [])).elAttrs
          = t2.elAttrs.filter (fun a => !(storePfx.isPrefixOf a.1)) := by
      rw [flushOne_replace (flushOne t2 (StoreUnit.replaceStored (toMap X))) [] hc hch (by simp)]
      rw [flushOne_replace t2 (toMap X) hc hch (toMap_fst_nodup X)]
      simp only [List.map_nil, List.append_nil, List.filter_append, filter_nonPfx_idem,
        encoded_filter_nonPfx]
    have hst2 : getStoredAttributes (flushOne (flushOne t2 (StoreUnit.replaceStored (toMap X)))
        (StoreUnit.replaceStored [])) = [] := by
      rw [getStoredAttributes_pos
        (flushOne (flushOne t2 (StoreUnit.replaceStored (toMap X))) (StoreUnit.replaceStored []))
        hc hch, hE2]
      simp [List.filter_filter]
    rw [hst2]
    rfl

theorem store_round_trip_witness :
    (updateAttributes (flush (setAttributesTo emptyCaretState [("bold".toList, 1)]))).attrsMap
      = [("bold".toList, 1)]
    ∧ (updateAttributes (flush (clearAttributes
        (setAttributesTo emptyCaretState [("bold".toList, 1)])))).attrsMap = [] :=
  ⟨((store_round_trip emptyCaretState [("bold".toList, 1)] rfl rfl rfl).1).trans (by decide),
   (store_round_trip emptyCaretState [("bold".toList, 1)] rfl rfl rfl).2⟩

/-! ## Range bookkeeping -/

theorem mem_foldl_detach (L : List LRange) (subs : List Nat) (j : Nat) :
    (j ∈ L.foldl (fun acc lr => detachSub acc lr.subId) subs)
      ↔ j ∈ subs ∧ ∀ lr ∈ L, j ≠ lr.subId := by
  induction L generalizing subs with
  | nil => simp
  | cons lr L ih =>
    rw [List.foldl_cons, ih]
    simp only [detachSub, List.mem_filter, bne_iff_ne, List.forall_mem_cons]
    tauto

theorem foldlM_pushRange (rs : List MRange) (s0 s1 : SelRState)
    (h : List.foldlM pushRange s0 rs = some s1) :
    s0.nextId ≤ s1.nextId
    ∧ (∃ newRs : List LRange,
        s1.ranges = s0.ranges ++ newRs
        ∧ s1.subs = s0.subs ++ newRs.map (fun lr => lr.subId)
        ∧ (∀ lr ∈ newRs, s0.nextId ≤ lr.subId)
        ∧ newRs.map (fun lr => lr.data) = rs.map (fun r => r.data))
    ∧ (∀ r ∈ rs, r.isValid = true)
    ∧ s1.backward = s0.backward := by
  induction rs generalizing s0 with
  | nil =>
    rw [List.foldlM_nil] at h
    cases h
    exact ⟨le_refl _, ⟨[], by simp, by simp, by simp, rfl⟩, by simp, rfl⟩
  | cons r rs ih =>
    rw [List.foldlM_cons] at h
    rcases hpr : pushRange s0 r with _ | s0'
    · rw [hpr] at h
      cases h
    · rw [hpr] at h
      obtain ⟨hle, ⟨newRs, hr1, hs1n, hfresh2, hdata⟩, hval, hback⟩ := ih s0' h
      unfold pushRange at hpr
      by_cases hv : r.isValid
      · rw [if_pos hv] at hpr
        have hs0' := Option.some.inj hpr
        subst hs0'
        refine ⟨by simpa using Nat.le_of_succ_le (Nat.succ_le_of_lt (Nat.lt_of_lt_of_le (Nat.lt_succ_self _) (by simpa using hle))), ?_, ?_, by simpa using hback⟩
        · refine ⟨{ data := r.data, subId := s0.nextId } :: newRs, ?_, ?_, ?_, ?_⟩
          · rw [hr1]
            simp
          · rw [hs1n]
            simp
          · intro lr hlr
            rcases List.mem_cons.mp hlr with h1 | h1
            · rw [h1]
            · exact Nat.le_of_succ_le (by simpa using hfresh2 lr h1)
          · simp [hdata]
        · intro x hx
          rcases List.mem_cons.mp hx with h1 | h1
          · rw [h1]; exact hv
          · exact hval x h1
      · rw [if_neg hv] at hpr
        cases hpr

/-- C8: setRanges first detaches every live range currently held (so none of
their subscriptions survives into the new state) and only then installs the
new ranges: the surviving subscription list is exactly the destroyed list
extended by the fresh subscriptions of the newly stored live ranges, each of
which wraps a validated incoming range (an invalid range makes the whole call
fail, so a successful call implies every incoming range was valid).
removeAllRanges detaches everything and leaves the range set empty, and every
range popped by _popRange is detached. -/
theorem setRanges_detach_contract (s : SelRState) (rs : List MRange) (b : Bool)
    (s2 : SelRState) (hset : docSetRanges s rs b = some s2)
    (hfresh : ∀ lr ∈ s.ranges, lr.subId < s.nextId) :
    (∀ lr ∈ s.ranges, lr.subId ∉ s2.subs)
    ∧ s2.subs = (destroy s).subs ++ s2.ranges.map (fun lr => lr.subId)
    ∧ s2.ranges.map (fun lr => lr.data) = rs.map (fun r => r.data)
    ∧ (∀ r ∈ rs, r.isValid = true)
    ∧ (docRemoveAllRanges s).ranges = []
    ∧ (∀ lr ∈ s.ranges, lr.subId ∉ (docRemoveAllRanges s).subs)
    ∧ (∀ t : SelRState, ∀ pre : List LRange, ∀ lr : LRange,
        t.ranges = pre ++ [lr] → lr.subId ∉ (popRange t).subs) := by
  unfold docSetRanges baseSetRanges at hset
  rcases hfold : List.foldlM pushRange { destroy s with ranges := [] } rs with _ | s1
  · rw [hfold] at hset
    cases hset
  · rw [hfold] at hset
    have hs2 : s2 = { s1 with backward := b } := (Option.some.inj hset).symm
    obtain ⟨hle, ⟨newRs, hr1, hs1n, hfresh2, hdata⟩, hval, hback⟩ :=
      foldlM_pushRange rs _ s1 hfold
    have hD : ∀ lr ∈ s.ranges, lr.subId ∉ (destroy s).subs := by
      intro lr hlr hmem
      have := (mem_foldl_detach s.ranges s.subs lr.subId).mp hmem
      exact this.2 lr hlr rfl
    have hsubs2 : s2.subs = (destroy s).subs ++ newRs.map (fun lr => lr.subId) := by
      rw [hs2]
      simpa using hs1n
    have hranges2 : s2.ranges = newRs := by
      rw [hs2]
      simpa using hr1
    refine ⟨?_, ?_, ?_, hval, rfl, hD, ?_⟩
    · intro lr hlr
      rw [hsubs2]
      rw [List.mem_append]
      rintro (hmem | hmem)
      · exact hD lr hlr hmem
      · rcases List.mem_map.mp hmem with ⟨nlr, hn1, hn2⟩
        have h1 : s.nextId ≤ nlr.subId := by simpa using hfresh2 nlr hn1
        have h2 : lr.subId < s.nextId := hfresh lr hlr
        omega
    · rw [hsubs2, hranges2]
    · rw [hranges2]
      simpa using hdata
    · intro t pre lr ht
      unfold popRange
      rw [ht, List.getLast?_concat]
      simp [detachSub, List.mem_filter]

/-- A selection holding one live range with subscription 0, one unrelated
document subscription 3, and fresh counter 1. -/
def rangeState : SelRState :=
  { ranges := [{ data := 5, subId := 0 }], subs := [0, 3], nextId := 1, backward := false }

/-- The state produced by replacing the range of rangeState by a fresh valid
range: subscription 0 is detached, subscription 3 survives, the new live
range holds fresh subscription 1. -/
def rangeState2 : SelRState :=
  { ranges := [{ data := 7, subId := 1 }], subs := [3, 1], nextId := 2, backward := true }

theorem setRanges_detach_contract_witness :
    docSetRanges rangeState [{ data := 7, isValid := true }] true = some rangeState2
    ∧ (∀ lr ∈ rangeState.ranges, lr.subId ∉ rangeState2.subs) :=
  ⟨by decide,
   fun lr hlr =>
     (setRanges_detach_contract rangeState [{ data := 7, isValid := true }] true rangeState2
       (by decide) (by decide)).1 lr hlr⟩
